import Mathlib

/-
Shallow embedding of the ARIMA hyperparameter grid-search notebook
(functions `evaluate_arima_models` and `evaluate_models`).

Modelling decisions:
- Floating-point observations are idealized as exact rationals (ℚ).
- The external modeling primitive (the chain
  `ARIMA(history, arima_order).fit().forecast()[0][0]`) is an opaque
  parameter of type `ModelPrimitive`; `none` models a raised exception
  anywhere in that chain (numerical non-convergence etc.).
- The statsmodels error metric `rmse(x1, x2) = sqrt(mean((x1-x2)**2))`
  produces a square root, irrational in general; the development represents
  every error value by its radicand, the mean squared error `rmse_sq`
  (a rational, computable exactly), and interprets it into ℝ via
  `Real.sqrt`.  Since √ is strictly monotone on the nonnegatives and all
  radicands that arise are nonnegative, the source comparison
  `rmse < best_score` is exactly the comparison of radicands
  (theorem `rmse_val_lt_iff` below), and `float('inf')` is `⊤ : WithTop ℚ`.
- Python's mutable variables become explicit state threading: the
  walk-forward loop state `EvalState` carries the series, the expanding
  History, and the Prediction Record, so frame properties (what is and is
  not written) are provable rather than implicit.
-/

namespace ArimaGrid

/-- A hyperparameter triple (p, d, q): autoregressive order, differencing
order, moving-average order. -/
abbrev ArimaOrder := ℕ × ℕ × ℕ

/-- The external modeling primitive: given the current history and an
order, produce the one-step out-of-sample forecast
`ARIMA(history, arima_order).fit().forecast()[0][0]`, or `none` when the
fit/forecast raises. -/
abbrev ModelPrimitive := List ℚ → ArimaOrder → Option ℚ

/-- State of one `evaluate_arima_models` call: the (immutable) input
series `X`, the expanding `history`, and the accumulated `predictions`. -/
structure EvalState where
  series : List ℚ
  history : List ℚ
  predictions : List ℚ
  deriving DecidableEq, Repr

/-- One iteration of the walk-forward loop body, at test observation `t`:
fit/forecast on the current history (`yhat = ...forecast()[0][0]`), append
`yhat` to predictions, append the true observation `t` to history.  `none`
models the exception propagating out of the loop. -/
def walkStep (fc : ModelPrimitive) (arima_order : ArimaOrder) (st : EvalState)
    (t : ℚ) : Option EvalState :=
  match fc st.history arima_order with
  | none => none
  | some yhat =>
      some { st with
               predictions := st.predictions ++ [yhat]
               history := st.history ++ [t] }

/-- The walk-forward loop `for t in range(len(test))`, folded over the
test suffix. -/
def walkRun (fc : ModelPrimitive) (arima_order : ArimaOrder) (st : EvalState) :
    List ℚ → Option EvalState
  | [] => some st
  | t :: rest => (walkStep fc arima_order st t).bind
      (fun st2 => walkRun fc arima_order st2 rest)

/-- The split index `train_size = int(len(X)*0.66)`, exactly
floor(0.66 * length) under the exact-arithmetic idealization. -/
def train_size (X : List ℚ) : ℕ := 66 * X.length / 100

/-- Run the body of `evaluate_arima_models`: split `X` into
`train, test = X[0:train_size], X[train_size:]`, initialize history as a
copy of train and predictions as the empty list, and execute the
walk-forward loop over the test suffix. -/
def evaluate_run (fc : ModelPrimitive) (X : List ℚ) (arima_order : ArimaOrder) :
    Option EvalState :=
  walkRun fc arima_order
    { series := X, history := X.take (train_size X), predictions := [] }
    (X.drop (train_size X))

/-- Radicand of the statsmodels metric `rmse(x1, x2)`: the mean of the
element-wise squared differences.  The value the source returns is the
square root of this (see `rmse_val`). -/
def rmse_sq (x1 x2 : List ℚ) : ℚ :=
  (List.zipWith (fun a b => (a - b) ^ 2) x1 x2).sum / (x1.length : ℚ)

/-- The real value of the statsmodels metric
`rmse(x1, x2) = sqrt(mean((x1-x2)**2))`. -/
noncomputable def rmse_val (x1 x2 : List ℚ) : ℝ :=
  Real.sqrt (rmse_sq x1 x2)

/-- `evaluate_arima_models(X, arima_order)`, with the returned error
`rmse(test, predictions)` represented by its radicand; `none` models the
exception raised by a failing fit at some walk-forward step. -/
def evaluate_arima_models (fc : ModelPrimitive) (X : List ℚ)
    (arima_order : ArimaOrder) : Option ℚ :=
  (evaluate_run fc X arima_order).map
    (fun st => rmse_sq (X.drop (train_size X)) st.predictions)

/-- The real number `evaluate_arima_models` returns in the source
(the square root of the represented radicand). -/
noncomputable def evaluate_arima_models_val (fc : ModelPrimitive) (X : List ℚ)
    (arima_order : ArimaOrder) : Option ℝ :=
  (evaluate_arima_models fc X arima_order).map (fun e => Real.sqrt (e : ℝ))

/-- The Best Result pair `best_score, best_cfg = float('inf'), None`;
`best_score` holds the radicand of the best error, `⊤` standing for
`float('inf')`. -/
structure Best where
  best_score : WithTop ℚ
  best_cfg : Option ArimaOrder
  deriving DecidableEq, Repr

/-- The sentinel initial Best Result `(float('inf'), None)`. -/
def initBest : Best := { best_score := ⊤, best_cfg := none }

/-- The per-candidate body of `evaluate_models`: evaluate the candidate
under try/except (a `none` evaluation is the caught exception, `continue`),
and update the Best Result when the new error is strictly smaller. -/
def updateBest (ev : ArimaOrder → Option ℚ) (b : Best) (c : ArimaOrder) :
    Best :=
  match ev c with
  | none => b
  | some q =>
      if (q : WithTop ℚ) < b.best_score then
        { best_score := (q : WithTop ℚ), best_cfg := some c }
      else b

/-- The grid-search accumulation: fold the per-candidate body over a list
of candidate orders. -/
def runBest (ev : ArimaOrder → Option ℚ) (b : Best) (l : List ArimaOrder) :
    Best :=
  l.foldl (updateBest ev) b

/-- The candidate enumeration produced by the three nested loops
`for p in p_values: for d in d_values: for q in q_values`, p outermost,
d middle, q innermost. -/
def candidates (p_values d_values q_values : List ℕ) : List ArimaOrder :=
  p_values.flatMap (fun p =>
    d_values.flatMap (fun d =>
      q_values.map (fun q => (p, d, q))))

/-- A line printed by `evaluate_models`: either a per-improvement line
`"ARIMA order: %s and RMSE = %.3f"` or the final line
`"Best ARIMA order %s and RMSE = %.3f"`.  Scores are carried as radicands. -/
inductive OutLine where
  | improvement : ArimaOrder → ℚ → OutLine
  | finalReport : Option ArimaOrder → WithTop ℚ → OutLine
  deriving DecidableEq, Repr

/-- The per-candidate body of `evaluate_models` together with its printing
effect: on a strict improvement the Best Result is updated and an
improvement line is emitted; a caught exception or a non-improving error
leaves both unchanged. -/
def stepLog (ev : ArimaOrder → Option ℚ) (s : Best × List OutLine)
    (c : ArimaOrder) : Best × List OutLine :=
  match ev c with
  | none => s
  | some q =>
      if (q : WithTop ℚ) < s.1.best_score then
        ({ best_score := (q : WithTop ℚ), best_cfg := some c },
         s.2 ++ [OutLine.improvement c q])
      else s

/-- The observable outcome of one `evaluate_models` call: the final Best
Result pair, the ordered printed output, and the Python return value.
The source function ends with a print and has no return statement, so its
value is Python's None, modelled as `retval = none`. -/
structure SearchOutcome where
  best : Best
  output : List OutLine
  retval : Option (Option ArimaOrder × WithTop ℚ)
  deriving DecidableEq, Repr

/-- `dataset = dataset.astype('float32')`: produces a fresh value coerced
to floating point; under the exact-arithmetic idealization the coercion
preserves each observation. -/
def astype_float32 (X : List ℚ) : List ℚ := X.map (fun x => x)

/-- `evaluate_models(dataset, p_values, d_values, q_values)`: coerce the
dataset, fold the per-candidate body over the candidate enumeration
starting from the sentinel `(float('inf'), None)`, print the final line,
and fall off the end of the function (returning None). -/
def evaluate_models (fc : ModelPrimitive) (dataset : List ℚ)
    (p_values d_values q_values : List ℕ) : SearchOutcome :=
  let data := astype_float32 dataset
  let ev := fun c => evaluate_arima_models fc data c
  let r := (candidates p_values d_values q_values).foldl (stepLog ev)
    (initBest, [])
  { best := r.1
    output := r.2 ++ [OutLine.finalReport r.1.best_cfg r.1.best_score]
    retval := none }

/-! Helper lemmas about the walk-forward loop. -/

theorem walkRun_frame (fc : ModelPrimitive) (o : ArimaOrder) :
    ∀ (l : List ℚ) (s0 st : EvalState),
      walkRun fc o s0 l = some st →
      st.series = s0.series ∧ st.history = s0.history ++ l ∧
        st.predictions.length = s0.predictions.length + l.length := by
  intro l
  induction l with
  | nil =>
      intro s0 st h
      simp only [walkRun, Option.some.injEq] at h
      subst h
      simp
  | cons t rest ih =>
      intro s0 st h
      simp only [walkRun, walkStep] at h
      cases hf : fc s0.history o with
      | none => rw [hf] at h; simp at h
      | some yhat =>
          rw [hf] at h
          simp only [Option.some_bind] at h
          obtain ⟨h1, h2, h3⟩ := ih _ _ h
          refine ⟨h1, ?_, ?_⟩
          · rw [h2]; simp
          · rw [h3]; simp; omega

theorem walkRun_append (fc : ModelPrimitive) (o : ArimaOrder) (l₁ l₂ : List ℚ) :
    ∀ s0 : EvalState,
      walkRun fc o s0 (l₁ ++ l₂) =
        (walkRun fc o s0 l₁).bind (fun s => walkRun fc o s l₂) := by
  induction l₁ with
  | nil => intro s0; simp [walkRun]
  | cons t rest ih =>
      intro s0
      simp only [List.cons_append, walkRun]
      cases walkStep fc o s0 t with
      | none => simp
      | some s1 => simp [ih]

theorem walkRun_congr (fc₁ fc₂ : ModelPrimitive) (o : ArimaOrder) :
    ∀ (l : List ℚ) (s0 : EvalState),
      (∀ k, k ≤ l.length →
        fc₁ (s0.history ++ l.take k) o = fc₂ (s0.history ++ l.take k) o) →
      walkRun fc₁ o s0 l = walkRun fc₂ o s0 l := by
  intro l
  induction l with
  | nil => intro s0 _; rfl
  | cons t rest ih =>
      intro s0 hagree
      have h0 : fc₁ s0.history o = fc₂ s0.history o := by
        simpa using hagree 0 (by simp)
      simp only [walkRun, walkStep, h0]
      cases hf : fc₂ s0.history o with
      | none => rfl
      | some yhat =>
          simp only [Option.some_bind]
          refine ih _ (fun k hk => ?_)
          have := hagree (k + 1) (by simpa using hk)
          simpa [List.take_succ_cons, List.append_assoc] using this

/-! Helper lemmas about the error metric. -/

theorem zipWith_sq_sum_nonneg :
    ∀ x1 x2 : List ℚ, 0 ≤ (List.zipWith (fun a b => (a - b) ^ 2) x1 x2).sum := by
  intro x1
  induction x1 with
  | nil => intro x2; simp
  | cons a l ih =>
      intro x2
      cases x2 with
      | nil => simp
      | cons b m => simpa using add_nonneg (sq_nonneg (a - b)) (ih m)

theorem rmse_sq_nonneg (x1 x2 : List ℚ) : 0 ≤ rmse_sq x1 x2 :=
  div_nonneg (zipWith_sq_sum_nonneg x1 x2) (by positivity)

theorem rmse_val_nonneg (x1 x2 : List ℚ) : 0 ≤ rmse_val x1 x2 :=
  Real.sqrt_nonneg _

/-- The source compares error values (square roots) with strict `<`; on
nonnegative radicands this is exactly the comparison of the radicands, so
the radicand representation used throughout is order-faithful. -/
theorem rmse_val_lt_iff (a b : ℚ) (ha : 0 ≤ a) :
    Real.sqrt (a : ℝ) < Real.sqrt (b : ℝ) ↔ a < b := by
  rw [Real.sqrt_lt_sqrt_iff (by exact_mod_cast ha)]
  exact_mod_cast Iff.rfl

theorem train_size_le (X : List ℚ) : train_size X ≤ X.length := by
  unfold train_size
  calc 66 * X.length / 100 ≤ 100 * X.length / 100 :=
        Nat.div_le_div_right (by omega)
  _ = X.length := by omega

/-! Helper lemmas about the Best Result accumulation. -/

theorem runBest_nil (ev : ArimaOrder → Option ℚ) (b : Best) :
    runBest ev b [] = b := rfl

theorem runBest_cons (ev : ArimaOrder → Option ℚ) (b : Best) (c : ArimaOrder)
    (l : List ArimaOrder) :
    runBest ev b (c :: l) = runBest ev (updateBest ev b c) l := rfl

theorem runBest_append (ev : ArimaOrder → Option ℚ) (b : Best)
    (l₁ l₂ : List ArimaOrder) :
    runBest ev b (l₁ ++ l₂) = runBest ev (runBest ev b l₁) l₂ :=
  List.foldl_append _ _ _ _

theorem updateBest_none {ev : ArimaOrder → Option ℚ} {c : ArimaOrder}
    (h : ev c = none) (b : Best) : updateBest ev b c = b := by
  simp [updateBest, h]

theorem updateBest_cases (ev : ArimaOrder → Option ℚ) (b : Best)
    (c : ArimaOrder) :
    updateBest ev b c = b ∨
      ∃ q, ev c = some q ∧ (q : WithTop ℚ) < b.best_score ∧
        updateBest ev b c =
          { best_score := (q : WithTop ℚ), best_cfg := some c } := by
  unfold updateBest
  cases h : ev c with
  | none => exact Or.inl rfl
  | some q =>
      by_cases hq : (q : WithTop ℚ) < b.best_score
      · exact Or.inr ⟨q, rfl, hq, by simp [hq]⟩
      · exact Or.inl (by simp [hq])

theorem updateBest_score_le (ev : ArimaOrder → Option ℚ) (b : Best)
    (c : ArimaOrder) : (updateBest ev b c).best_score ≤ b.best_score := by
  rcases updateBest_cases ev b c with h | ⟨q, _, hlt, h⟩
  · rw [h]
  · rw [h]; exact le_of_lt hlt

theorem updateBest_score_le_of_eval {ev : ArimaOrder → Option ℚ}
    {c : ArimaOrder} {q : ℚ} (h : ev c = some q) (b : Best) :
    (updateBest ev b c).best_score ≤ (q : WithTop ℚ) := by
  unfold updateBest
  rw [h]
  by_cases hq : (q : WithTop ℚ) < b.best_score
  · simp [hq]
  · simp only [hq, if_false]
    exact le_of_not_lt hq

theorem runBest_score_le (ev : ArimaOrder → Option ℚ) (l : List ArimaOrder) :
    ∀ b : Best, (runBest ev b l).best_score ≤ b.best_score := by
  induction l with
  | nil => intro b; exact le_refl _
  | cons c l ih =>
      intro b
      rw [runBest_cons]
      exact le_trans (ih _) (updateBest_score_le ev b c)

theorem runBest_score_le_of_mem {ev : ArimaOrder → Option ℚ}
    {l : List ArimaOrder} {c : ArimaOrder} {q : ℚ}
    (hc : c ∈ l) (hq : ev c = some q) (b : Best) :
    (runBest ev b l).best_score ≤ (q : WithTop ℚ) := by
  obtain ⟨s, t, rfl⟩ := List.append_of_mem hc
  rw [runBest_append, runBest_cons]
  exact le_trans (runBest_score_le ev t _)
    (updateBest_score_le_of_eval hq _)

theorem runBest_change (ev : ArimaOrder → Option ℚ) (l : List ArimaOrder) :
    ∀ b : Best, runBest ev b l = b ∨
      ∃ c ∈ l, ∃ q, ev c = some q ∧
        runBest ev b l =
          { best_score := (q : WithTop ℚ), best_cfg := some c } := by
  induction l with
  | nil => intro b; exact Or.inl rfl
  | cons c l ih =>
      intro b
      rw [runBest_cons]
      rcases updateBest_cases ev b c with h | ⟨q, hq, _, h⟩
      · rcases ih (updateBest ev b c) with h2 | ⟨c2, hc2, q2, hq2, h2⟩
        · exact Or.inl (by rw [h2, h])
        · exact Or.inr ⟨c2, List.mem_cons_of_mem _ hc2, q2, hq2, h2⟩
      · rcases ih (updateBest ev b c) with h2 | ⟨c2, hc2, q2, hq2, h2⟩
        · exact Or.inr ⟨c, List.mem_cons_self c l, q, hq, by rw [h2, h]⟩
        · exact Or.inr ⟨c2, List.mem_cons_of_mem _ hc2, q2, hq2, h2⟩

theorem runBest_all_fail {ev : ArimaOrder → Option ℚ} {l : List ArimaOrder}
    (h : ∀ c ∈ l, ev c = none) : ∀ b : Best, runBest ev b l = b := by
  induction l with
  | nil => intro b; rfl
  | cons c l ih =>
      intro b
      rw [runBest_cons, updateBest_none (h c (List.mem_cons_self c l))]
      exact ih (fun c2 hc2 => h c2 (List.mem_cons_of_mem _ hc2)) b

theorem runBest_skip_failures (ev : ArimaOrder → Option ℚ)
    (l : List ArimaOrder) :
    ∀ b : Best,
      runBest ev b (l.filter (fun c => (ev c).isSome)) = runBest ev b l := by
  induction l with
  | nil => intro b; rfl
  | cons c l ih =>
      intro b
      cases h : ev c with
      | none =>
          rw [List.filter_cons]
          simp only [h, Option.isSome_none]
          rw [runBest_cons, updateBest_none h]
          simpa using ih b
      | some q =>
          rw [List.filter_cons]
          simp only [h, Option.isSome_some, if_true]
          rw [runBest_cons, runBest_cons]
          exact ih _

theorem runBest_gt (ev : ArimaOrder → Option ℚ) (x : WithTop ℚ)
    (l : List ArimaOrder)
    (hl : ∀ c ∈ l, ∀ q, ev c = some q → x < (q : WithTop ℚ)) :
    ∀ b : Best, x < b.best_score → x < (runBest ev b l).best_score := by
  induction l with
  | nil => intro b hb; exact hb
  | cons c l ih =>
      intro b hb
      rw [runBest_cons]
      refine ih (fun c2 hc2 q hq => hl c2 (List.mem_cons_of_mem _ hc2) q hq)
        _ ?_
      rcases updateBest_cases ev b c with h | ⟨q, hq, _, h⟩
      · rw [h]; exact hb
      · rw [h]; exact hl c (List.mem_cons_self c l) q hq

theorem runBest_keep (ev : ArimaOrder → Option ℚ) (q : ℚ)
    (l : List ArimaOrder)
    (hl : ∀ c ∈ l, ∀ q2, ev c = some q2 → q ≤ q2) :
    ∀ b : Best, b.best_score = (q : WithTop ℚ) → runBest ev b l = b := by
  induction l with
  | nil => intro b _; rfl
  | cons c l ih =>
      intro b hb
      rw [runBest_cons]
      have hcb : updateBest ev b c = b := by
        unfold updateBest
        cases h : ev c with
        | none => rfl
        | some q2 =>
            have hle : q ≤ q2 := hl c (List.mem_cons_self c l) q2 h
            have : ¬ ((q2 : WithTop ℚ) < b.best_score) := by
              rw [hb]
              exact not_lt_of_ge (by exact_mod_cast hle)
            simp [this]
      rw [hcb]
      exact ih (fun c2 hc2 q2 hq2 => hl c2 (List.mem_cons_of_mem _ hc2) q2 hq2)
        b hb

/-! Helper lemmas about the candidate enumeration. -/

theorem inner_block_length (p : ℕ) (d_values q_values : List ℕ) :
    (d_values.flatMap (fun d => q_values.map (fun q => (p, d, q)))).length =
      d_values.length * q_values.length := by
  induction d_values with
  | nil => simp
  | cons d ds ih =>
      simp only [List.flatMap_cons, List.length_append, List.length_map, ih,
        List.length_cons, Nat.succ_mul]
      omega

theorem length_candidates (p_values d_values q_values : List ℕ) :
    (candidates p_values d_values q_values).length =
      p_values.length * d_values.length * q_values.length := by
  induction p_values with
  | nil => simp [candidates]
  | cons p ps ih =>
      simp only [candidates, List.flatMap_cons, List.length_append] at ih ⊢
      rw [inner_block_length, ih, List.length_cons, Nat.succ_mul, Nat.add_mul]
      omega

theorem mem_candidates (p_values d_values q_values : List ℕ)
    (c : ArimaOrder) :
    c ∈ candidates p_values d_values q_values ↔
      c.1 ∈ p_values ∧ c.2.1 ∈ d_values ∧ c.2.2 ∈ q_values := by
  obtain ⟨p, d, q⟩ := c
  simp only [candidates, List.mem_flatMap, List.mem_map, Prod.mk.injEq]
  constructor
  · rintro ⟨p2, hp2, d2, hd2, q2, hq2, rfl, rfl, rfl⟩
    exact ⟨hp2, hd2, hq2⟩
  · rintro ⟨hp, hd, hq⟩
    exact ⟨p, hp, d, hd, q, hq, rfl, rfl, rfl⟩

theorem inner_block_getElem (p : ℕ) (d_values q_values : List ℕ) :
    ∀ (j k : ℕ) (hj : j < d_values.length) (hk : k < q_values.length),
      (d_values.flatMap
        (fun d => q_values.map (fun q => (p, d, q))))[j * q_values.length + k]? =
        some (p, d_values[j], q_values[k]) := by
  induction d_values with
  | nil => intro j k hj _; exact absurd hj (by simp)
  | cons d ds ih =>
      intro j k hj hk
      cases j with
      | zero =>
          simp only [Nat.zero_mul, Nat.zero_add, List.flatMap_cons]
          rw [List.getElem?_append]
          simp only [List.length_map, hk, if_true]
          rw [List.getElem?_map]
          simp [List.getElem?_eq_getElem hk]
      | succ j =>
          have hj2 : j < ds.length := by simpa using hj
          have hidx : (j + 1) * q_values.length + k =
              q_values.length + (j * q_values.length + k) := by ring
          simp only [List.flatMap_cons, hidx]
          rw [List.getElem?_append]
          simp only [List.length_map]
          rw [if_neg (by omega), Nat.add_sub_cancel_left]
          simp only [List.getElem_cons_succ]
          exact ih j k hj2 hk

theorem stepLog_fst (ev : ArimaOrder → Option ℚ) :
    ∀ (l : List ArimaOrder) (b : Best) (log : List OutLine),
      (l.foldl (stepLog ev) (b, log)).1 = runBest ev b l := by
  intro l
  induction l with
  | nil => intro b log; rfl
  | cons c l ih =>
      intro b log
      rw [List.foldl_cons, runBest_cons]
      cases h : ev c with
      | none =>
          have h1 : stepLog ev (b, log) c = (b, log) := by simp [stepLog, h]
          rw [h1, updateBest_none h, ih]
      | some q =>
          by_cases hq : (q : WithTop ℚ) < b.best_score
          · have h1 : stepLog ev (b, log) c =
                ({ best_score := (q : WithTop ℚ), best_cfg := some c },
                 log ++ [OutLine.improvement c q]) := by
              simp [stepLog, h, hq]
            have h2 : updateBest ev b c =
                { best_score := (q : WithTop ℚ), best_cfg := some c } := by
              simp [updateBest, h, hq]
            rw [h1, h2, ih]
          · have h1 : stepLog ev (b, log) c = (b, log) := by
              simp [stepLog, h, hq]
            have h2 : updateBest ev b c = b := by simp [updateBest, h, hq]
            rw [h1, h2, ih]

theorem candidates_getElem (p_values d_values q_values : List ℕ) :
    ∀ (i j k : ℕ) (hi : i < p_values.length) (hj : j < d_values.length)
      (hk : k < q_values.length),
      (candidates p_values d_values
        q_values)[(i * d_values.length + j) * q_values.length + k]? =
        some (p_values[i], d_values[j], q_values[k]) := by
  induction p_values with
  | nil => intro i j k hi _ _; exact absurd hi (by simp)
  | cons p ps ih =>
      intro i j k hi hj hk
      cases i with
      | zero =>
          have hidx : (0 * d_values.length + j) * q_values.length + k =
              j * q_values.length + k := by ring
          have hbound : j * q_values.length + k <
              d_values.length * q_values.length := by
            calc j * q_values.length + k < j * q_values.length + q_values.length :=
                  by omega
            _ = (j + 1) * q_values.length := by ring
            _ ≤ d_values.length * q_values.length :=
                  Nat.mul_le_mul_right _ (by omega)
          simp only [candidates, List.flatMap_cons, hidx]
          rw [List.getElem?_append, inner_block_length]
          rw [if_pos hbound]
          simpa using inner_block_getElem p d_values q_values j k hj hk
      | succ i =>
          have hi2 : i < ps.length := by simpa using hi
          have hidx : ((i + 1) * d_values.length + j) * q_values.length + k =
              d_values.length * q_values.length +
                ((i * d_values.length + j) * q_values.length + k) := by ring
          simp only [candidates, List.flatMap_cons, hidx]
          rw [List.getElem?_append, inner_block_length]
          rw [if_neg (by omega), Nat.add_sub_cancel_left]
          simp only [List.getElem_cons_succ]
          exact ih i j k hi2 hj hk

/-! Helper lemmas linking `evaluate_models` to the Best Result fold. -/

theorem evaluate_models_best (fc : ModelPrimitive) (dataset : List ℚ)
    (p_values d_values q_values : List ℕ) :
    (evaluate_models fc dataset p_values d_values q_values).best =
      runBest (fun c => evaluate_arima_models fc (astype_float32 dataset) c)
        initBest (candidates p_values d_values q_values) := by
  simp only [evaluate_models]
  exact stepLog_fst _ _ _ _

theorem evaluate_models_retval (fc : ModelPrimitive) (dataset : List ℚ)
    (p_values d_values q_values : List ℕ) :
    (evaluate_models fc dataset p_values d_values q_values).retval = none :=
  rfl

theorem evaluate_models_output_last (fc : ModelPrimitive) (dataset : List ℚ)
    (p_values d_values q_values : List ℕ) :
    (evaluate_models fc dataset p_values d_values q_values).output.getLast? =
      some (OutLine.finalReport
        (evaluate_models fc dataset p_values d_values q_values).best.best_cfg
        (evaluate_models fc dataset p_values d_values
          q_values).best.best_score) := by
  simp only [evaluate_models]
  exact List.getLast?_concat _

theorem evaluate_models_of_candidates_nil (fc : ModelPrimitive)
    (dataset : List ℚ) (p_values d_values q_values : List ℕ)
    (h : candidates p_values d_values q_values = []) :
    evaluate_models fc dataset p_values d_values q_values =
      { best := initBest, output := [OutLine.finalReport none ⊤],
        retval := none } := by
  simp only [evaluate_models, h, List.foldl_nil]
  rfl

theorem getLast?_take_eq {l : List ℚ} {n : ℕ} (h1 : 1 ≤ n)
    (h2 : n ≤ l.length) : (l.take n).getLast? = l[n - 1]? := by
  rw [List.getLast?_eq_getElem? _]
  have hlen : (l.take n).length = n := by rw [List.length_take]; omega
  rw [hlen, List.getElem?_take, if_pos (by omega)]

/-! Claim theorems. -/

/-- Claim C1: for every series of length at least 4 and every order for
which the modeling primitive succeeds at every step, `evaluate_arima_models`
returns a non-negative error (the returned real value √(mean squared error)
is non-negative, as is its radicand), the number of accumulated one-step
predictions equals the length of the test suffix, namely
length - floor(0.66·length), and the split index floor(0.66·length)
separates the training prefix from the test suffix. -/
theorem evaluate_nonneg_and_prediction_count (fc : ModelPrimitive)
    (X : List ℚ) (o : ArimaOrder) (st : EvalState) (hlen : 4 ≤ X.length)
    (h : evaluate_run fc X o = some st) :
    evaluate_arima_models fc X o =
        some (rmse_sq (X.drop (train_size X)) st.predictions) ∧
      0 ≤ rmse_sq (X.drop (train_size X)) st.predictions ∧
      evaluate_arima_models_val fc X o =
        some (Real.sqrt ((rmse_sq (X.drop (train_size X)) st.predictions : ℚ) : ℝ)) ∧
      0 ≤ Real.sqrt ((rmse_sq (X.drop (train_size X)) st.predictions : ℚ) : ℝ) ∧
      st.predictions.length = X.length - train_size X ∧
      train_size X = 66 * X.length / 100 ∧
      X.take (train_size X) ++ X.drop (train_size X) = X := by
  have hmap : evaluate_arima_models fc X o =
      some (rmse_sq (X.drop (train_size X)) st.predictions) := by
    unfold evaluate_arima_models
    rw [h]
    rfl
  refine ⟨hmap, rmse_sq_nonneg _ _, ?_, Real.sqrt_nonneg _, ?_, rfl,
    List.take_append_drop _ _⟩
  · unfold evaluate_arima_models_val
    rw [hmap]
    rfl
  · obtain ⟨_, _, h3⟩ := walkRun_frame fc o _ _ _ h
    simpa using h3

theorem evaluate_nonneg_and_prediction_count_witness :
    4 ≤ ([1, 2, 3, 4] : List ℚ).length ∧
    evaluate_run (fun _ _ => some 0) [1, 2, 3, 4] (0, 0, 0) =
      some { series := [1, 2, 3, 4], history := [1, 2, 3, 4],
             predictions := [0, 0] } ∧
    ({ series := [1, 2, 3, 4], history := [1, 2, 3, 4],
       predictions := [0, 0] } : EvalState).predictions.length =
      ([1, 2, 3, 4] : List ℚ).length - train_size [1, 2, 3, 4] := by
  have h1 : 4 ≤ ([1, 2, 3, 4] : List ℚ).length := by decide
  have h2 : evaluate_run (fun _ _ => some 0) [1, 2, 3, 4] (0, 0, 0) =
      some { series := [1, 2, 3, 4], history := [1, 2, 3, 4],
             predictions := [0, 0] } := by decide
  exact ⟨h1, h2,
    (evaluate_nonneg_and_prediction_count _ _ _ _ h1 h2).2.2.2.2.1⟩

/-- Claim C3: at each step t of the walk-forward loop, the History at the
moment the model is fitted is the training prefix extended by exactly the
first t true test observations, so it equals the first split + t elements
of the series, has length split + t, its last element is the series entry
at index split + t - 1 (a true observation, never a prediction), and every
element of History is an element of the original series. -/
theorem expanding_window_invariant (fc : ModelPrimitive) (o : ArimaOrder)
    (X : List ℚ) (t : ℕ) (st : EvalState)
    (ht : t ≤ X.length - train_size X) (hpos : 1 ≤ train_size X + t)
    (h : walkRun fc o
        { series := X, history := X.take (train_size X), predictions := [] }
        ((X.drop (train_size X)).take t) = some st) :
    st.history = X.take (train_size X) ++ (X.drop (train_size X)).take t ∧
    st.history = X.take (train_size X + t) ∧
    st.history.length = train_size X + t ∧
    st.history.getLast? = X[train_size X + t - 1]? ∧
    (∀ x ∈ st.history, x ∈ X) := by
  have hts := train_size_le X
  obtain ⟨_, h2, _⟩ := walkRun_frame fc o _ _ _ h
  have htake : st.history = X.take (train_size X + t) := by
    rw [h2, ← List.take_add]
  refine ⟨by simpa using h2, htake, ?_, ?_, ?_⟩
  · rw [htake, List.length_take]
    omega
  · rw [htake]
    exact getLast?_take_eq hpos (by omega)
  · intro x hx
    rw [htake] at hx
    exact List.take_subset _ _ hx

theorem expanding_window_invariant_witness :
    1 ≤ ([1, 2, 3, 4] : List ℚ).length - train_size [1, 2, 3, 4] ∧
    walkRun (fun _ _ => some 0) (0, 0, 0)
      { series := [1, 2, 3, 4],
        history := ([1, 2, 3, 4] : List ℚ).take (train_size [1, 2, 3, 4]),
        predictions := [] }
      ((([1, 2, 3, 4] : List ℚ).drop (train_size [1, 2, 3, 4])).take 1) =
      some { series := [1, 2, 3, 4], history := [1, 2, 3],
             predictions := [0] } ∧
    ([1, 2, 3] : List ℚ) = ([1, 2, 3, 4] : List ℚ).take (train_size [1, 2, 3, 4] + 1) := by
  have h1 : (1 : ℕ) ≤ ([1, 2, 3, 4] : List ℚ).length - train_size [1, 2, 3, 4] := by
    decide
  have h2 : walkRun (fun _ _ => some 0) (0, 0, 0)
      { series := [1, 2, 3, 4],
        history := ([1, 2, 3, 4] : List ℚ).take (train_size [1, 2, 3, 4]),
        predictions := [] }
      ((([1, 2, 3, 4] : List ℚ).drop (train_size [1, 2, 3, 4])).take 1) =
      some { series := [1, 2, 3, 4], history := [1, 2, 3],
             predictions := [0] } := by decide
  refine ⟨h1, h2, ?_⟩
  have := (expanding_window_invariant (fun _ _ => some 0) (0, 0, 0)
    [1, 2, 3, 4] 1 _ h1 (by decide) h2).2.1
  simpa using this

/-- Claim C8: the input series is never mutated.  In the state-threaded
embedding: the walk-forward loop never writes the series component of its
state (all appends go to History and the Prediction Record), an evaluation
leaves the series intact with History a copy of the training prefix plus
the test suffix, the float coercion produces a value equal to the input
element by element, and every per-candidate evaluation inside a grid
search preserves the coerced series. -/
theorem series_never_mutated (fc : ModelPrimitive) (o : ArimaOrder)
    (X : List ℚ) (p_values d_values q_values : List ℕ) :
    (∀ (l : List ℚ) (s0 st : EvalState),
        walkRun fc o s0 l = some st → st.series = s0.series) ∧
    (∀ st, evaluate_run fc X o = some st →
        st.series = X ∧
        st.history = X.take (train_size X) ++ X.drop (train_size X)) ∧
    astype_float32 X = X ∧
    (∀ c ∈ candidates p_values d_values q_values, ∀ st,
        evaluate_run fc (astype_float32 X) c = some st →
        st.series = astype_float32 X) := by
  refine ⟨?_, ?_, ?_, ?_⟩
  · intro l s0 st h
    exact (walkRun_frame fc o l s0 st h).1
  · intro st h
    obtain ⟨h1, h2, _⟩ := walkRun_frame fc o _ _ _ h
    exact ⟨by simpa using h1, by simpa using h2⟩
  · simp [astype_float32]
  · intro c _ st h
    exact (walkRun_frame fc c _ _ _ h).1

theorem series_never_mutated_witness :
    evaluate_run (fun _ _ => some 0) [1, 2, 3, 4] (0, 0, 0) =
      some { series := [1, 2, 3, 4], history := [1, 2, 3, 4],
             predictions := [0, 0] } ∧
    ({ series := [1, 2, 3, 4], history := [1, 2, 3, 4],
       predictions := [0, 0] } : EvalState).series = [1, 2, 3, 4] := by
  have h : evaluate_run (fun _ _ => some 0) [1, 2, 3, 4] (0, 0, 0) =
      some { series := [1, 2, 3, 4], history := [1, 2, 3, 4],
             predictions := [0, 0] } := by decide
  exact ⟨h,
    ((series_never_mutated (fun _ _ => some 0) (0, 0, 0) [1, 2, 3, 4]
      [] [] []).2.1 _ h).1⟩

/-- Claim C9: the evaluator is deterministic and free of hidden inputs:
its result depends only on the series, the order, and the responses of the
modeling primitive on the histories actually consulted (the prefixes of
the series from the split index on).  Two primitives agreeing there yield
identical runs and identical error values. -/
theorem walk_forward_deterministic (fc₁ fc₂ : ModelPrimitive) (X : List ℚ)
    (o : ArimaOrder)
    (hagree : ∀ m, train_size X ≤ m → m ≤ X.length →
      fc₁ (X.take m) o = fc₂ (X.take m) o) :
    evaluate_run fc₁ X o = evaluate_run fc₂ X o ∧
    evaluate_arima_models fc₁ X o = evaluate_arima_models fc₂ X o ∧
    evaluate_arima_models_val fc₁ X o = evaluate_arima_models_val fc₂ X o := by
  have hts := train_size_le X
  have hrun : evaluate_run fc₁ X o = evaluate_run fc₂ X o := by
    unfold evaluate_run
    refine walkRun_congr fc₁ fc₂ o _ _ (fun k hk => ?_)
    have hk2 : k ≤ X.length - train_size X := by
      simpa using hk
    show fc₁ (X.take (train_size X) ++ (X.drop (train_size X)).take k) o =
      fc₂ (X.take (train_size X) ++ (X.drop (train_size X)).take k) o
    rw [← List.take_add]
    exact hagree _ (Nat.le_add_right _ _) (by omega)
  refine ⟨hrun, ?_, ?_⟩
  · unfold evaluate_arima_models
    rw [hrun]
  · unfold evaluate_arima_models_val evaluate_arima_models
    rw [hrun]

theorem walk_forward_deterministic_witness :
    evaluate_arima_models (fun _ _ => some 0) [1, 2, 3, 4] (0, 0, 0) =
      evaluate_arima_models (fun h _ => some (h.sum * 0)) [1, 2, 3, 4]
        (0, 0, 0) := by
  exact (walk_forward_deterministic (fun _ _ => some 0)
    (fun h _ => some (h.sum * 0)) [1, 2, 3, 4] (0, 0, 0)
    (fun m _ _ => by simp)).2.1

/-- Claim C2: failure isolation.  The grid search is a total function of
its inputs (it cannot abort); a candidate whose evaluation fails is skipped
at the per-candidate boundary, so the search over all candidates equals the
search over only the succeeding candidates; the final Best Result error is
a lower bound of every succeeding candidate's error; and whenever some
candidate succeeds the final Best Result is the error/configuration of a
succeeding candidate. -/
theorem evaluate_models_failure_isolation (fc : ModelPrimitive) (X : List ℚ)
    (p_values d_values q_values : List ℕ) (ev : ArimaOrder → Option ℚ)
    (hev : ev = fun c => evaluate_arima_models fc (astype_float32 X) c) :
    (evaluate_models fc X p_values d_values q_values).best =
        runBest ev initBest (candidates p_values d_values q_values) ∧
    runBest ev initBest
        ((candidates p_values d_values q_values).filter
          (fun c => (ev c).isSome)) =
      (evaluate_models fc X p_values d_values q_values).best ∧
    (∀ c ∈ candidates p_values d_values q_values, ∀ q, ev c = some q →
        (evaluate_models fc X p_values d_values q_values).best.best_score ≤
          (q : WithTop ℚ)) ∧
    ((∃ c ∈ candidates p_values d_values q_values, (ev c).isSome) →
        ∃ c ∈ candidates p_values d_values q_values, ∃ q, ev c = some q ∧
          (evaluate_models fc X p_values d_values q_values).best =
            { best_score := (q : WithTop ℚ), best_cfg := some c }) := by
  subst hev
  have hbest := evaluate_models_best fc X p_values d_values q_values
  refine ⟨hbest, ?_, ?_, ?_⟩
  · rw [hbest]
    exact runBest_skip_failures _ _ _
  · intro c hc q hq
    rw [hbest]
    exact runBest_score_le_of_mem hc hq _
  · rintro ⟨c, hc, hsome⟩
    obtain ⟨q, hq⟩ := Option.isSome_iff_exists.mp hsome
    rcases runBest_change
        (fun c => evaluate_arima_models fc (astype_float32 X) c)
        (candidates p_values d_values q_values) initBest with
      hsame | ⟨c2, hc2, q2, hq2, hrb⟩
    · exfalso
      have hle := runBest_score_le_of_mem hc hq initBest
      rw [hsame] at hle
      exact absurd hle (by simp [initBest])
    · exact ⟨c2, hc2, q2, hq2, by rw [hbest, hrb]⟩

theorem evaluate_models_failure_isolation_witness :
    ((fun c => evaluate_arima_models
        (fun _ (c : ArimaOrder) => if c.2.2 = 0 then none else some 3)
        (astype_float32 [1, 2, 3, 4]) c) (0, 0, 0) = none) ∧
    ((fun c => evaluate_arima_models
        (fun _ (c : ArimaOrder) => if c.2.2 = 0 then none else some 3)
        (astype_float32 [1, 2, 3, 4]) c) (0, 0, 1) = some (1 / 2)) ∧
    (evaluate_models (fun _ (c : ArimaOrder) => if c.2.2 = 0 then none else some 3)
        [1, 2, 3, 4] [0] [0] [0, 1]).best.best_score ≤
      ((1 / 2 : ℚ) : WithTop ℚ) := by
  have hfail : evaluate_arima_models
      (fun _ (c : ArimaOrder) => if c.2.2 = 0 then none else some 3)
      (astype_float32 [1, 2, 3, 4]) (0, 0, 0) = none := rfl
  have hok : evaluate_arima_models
      (fun _ (c : ArimaOrder) => if c.2.2 = 0 then none else some 3)
      (astype_float32 [1, 2, 3, 4]) (0, 0, 1) = some (1 / 2) := by
    have h : evaluate_arima_models
        (fun _ (c : ArimaOrder) => if c.2.2 = 0 then none else some 3)
        (astype_float32 [1, 2, 3, 4]) (0, 0, 1) =
        some (rmse_sq [3, 4] [3, 3]) := rfl
    rw [h]
    norm_num [rmse_sq]
  refine ⟨hfail, hok, ?_⟩
  exact (evaluate_models_failure_isolation
    (fun _ (c : ArimaOrder) => if c.2.2 = 0 then none else some 3)
    [1, 2, 3, 4] [0] [0] [0, 1] _ rfl).2.2.1 (0, 0, 1)
    (by decide) (1 / 2) hok

/-- Claim C4: during one grid search invocation the Best Result error is
non-increasing along the enumeration: it starts at the sentinel
`float('inf')`, after any longer prefix of the enumeration it is at most
its value after any shorter prefix, and a per-candidate update either
leaves the Best Result unchanged or replaces it by a strictly smaller
error. -/
theorem evaluate_models_best_monotone (fc : ModelPrimitive) (X : List ℚ)
    (p_values d_values q_values : List ℕ) (ev : ArimaOrder → Option ℚ)
    (hev : ev = fun c => evaluate_arima_models fc (astype_float32 X) c)
    (m n : ℕ) (hmn : m ≤ n) :
    (evaluate_models fc X p_values d_values q_values).best =
        runBest ev initBest (candidates p_values d_values q_values) ∧
    (runBest ev initBest
        ((candidates p_values d_values q_values).take 0)).best_score = ⊤ ∧
    (runBest ev initBest
        ((candidates p_values d_values q_values).take n)).best_score ≤
      (runBest ev initBest
        ((candidates p_values d_values q_values).take m)).best_score ∧
    (∀ (b : Best) (c : ArimaOrder), updateBest ev b c = b ∨
        ∃ q, ev c = some q ∧ (q : WithTop ℚ) < b.best_score ∧
          updateBest ev b c =
            { best_score := (q : WithTop ℚ), best_cfg := some c }) := by
  subst hev
  refine ⟨evaluate_models_best fc X p_values d_values q_values, rfl, ?_,
    fun b c => updateBest_cases _ b c⟩
  have hsplit : (candidates p_values d_values q_values).take n =
      (candidates p_values d_values q_values).take m ++
        ((candidates p_values d_values q_values).drop m).take (n - m) := by
    rw [← List.take_add]
    congr 1
    omega
  rw [hsplit, runBest_append]
  exact runBest_score_le _ _ _

theorem evaluate_models_best_monotone_witness :
    (0 : ℕ) ≤ 2 ∧
    (runBest (fun c => evaluate_arima_models (fun _ _ => some 3)
        (astype_float32 [1, 2, 3, 4]) c) initBest
        ((candidates [0] [0] [0, 1]).take 2)).best_score ≤
      (runBest (fun c => evaluate_arima_models (fun _ _ => some 3)
        (astype_float32 [1, 2, 3, 4]) c) initBest
        ((candidates [0] [0] [0, 1]).take 0)).best_score := by
  exact ⟨by decide,
    (evaluate_models_best_monotone (fun _ _ => some 3) [1, 2, 3, 4]
      [0] [0] [0, 1] _ rfl 0 2 (by decide)).2.2.1⟩

/-- Claim C5: the grid search enumerates the full Cartesian product of the
candidate lists in the stable order with p outermost, d middle and q
innermost (the enumeration has the product length, contains exactly the
componentwise members, and its entry at index (i·|d|+j)·|q|+k is the
triple of the i-th p, j-th d and k-th q), and ties are resolved by strict
less-than: when a succeeding candidate attains the minimal error and no
earlier-enumerated candidate attains it, that candidate is the one
retained in the final Best Result. -/
theorem evaluate_models_enumeration_tie_break (p_values d_values q_values : List ℕ) :
    (candidates p_values d_values q_values).length =
        p_values.length * d_values.length * q_values.length ∧
    (∀ c : ArimaOrder, c ∈ candidates p_values d_values q_values ↔
        c.1 ∈ p_values ∧ c.2.1 ∈ d_values ∧ c.2.2 ∈ q_values) ∧
    (∀ (i j k : ℕ) (hi : i < p_values.length) (hj : j < d_values.length)
        (hk : k < q_values.length),
        (candidates p_values d_values
          q_values)[(i * d_values.length + j) * q_values.length + k]? =
          some (p_values[i], d_values[j], q_values[k])) ∧
    (∀ (fc : ModelPrimitive) (X : List ℚ) (ev : ArimaOrder → Option ℚ),
        ev = (fun c => evaluate_arima_models fc (astype_float32 X) c) →
        ∀ (l₁ l₂ : List ArimaOrder) (c : ArimaOrder) (q : ℚ),
          candidates p_values d_values q_values = l₁ ++ c :: l₂ →
          ev c = some q →
          (∀ c2 ∈ candidates p_values d_values q_values, ∀ q2,
            ev c2 = some q2 → q ≤ q2) →
          (∀ c2 ∈ l₁, ev c2 ≠ some q) →
          (evaluate_models fc X p_values d_values q_values).best =
            { best_score := (q : WithTop ℚ), best_cfg := some c }) := by
  refine ⟨length_candidates _ _ _, mem_candidates _ _ _,
    candidates_getElem _ _ _, ?_⟩
  rintro fc X ev rfl l₁ l₂ c q hcand hq hmin hfirst
  have hgt : ∀ c2 ∈ l₁, ∀ q2,
      (fun c => evaluate_arima_models fc (astype_float32 X) c) c2 = some q2 →
      (q : WithTop ℚ) < (q2 : WithTop ℚ) := by
    intro c2 hc2 q2 hq2
    have hmem : c2 ∈ candidates p_values d_values q_values := by
      rw [hcand]
      exact List.mem_append_left _ hc2
    have hle : q ≤ q2 := hmin c2 hmem q2 hq2
    have hne : q ≠ q2 := by
      intro hqq
      exact hfirst c2 hc2 (by rw [← hqq] at hq2; exact hq2)
    exact WithTop.coe_lt_coe.mpr (lt_of_le_of_ne hle hne)
  rw [evaluate_models_best, hcand, runBest_append, runBest_cons]
  have h1 : (q : WithTop ℚ) <
      (runBest (fun c => evaluate_arima_models fc (astype_float32 X) c)
        initBest l₁).best_score :=
    runBest_gt _ _ _ hgt _ (WithTop.coe_lt_top q)
  have h2 : updateBest (fun c => evaluate_arima_models fc (astype_float32 X) c)
      (runBest (fun c => evaluate_arima_models fc (astype_float32 X) c)
        initBest l₁) c =
      { best_score := (q : WithTop ℚ), best_cfg := some c } := by
    unfold updateBest
    rw [hq]
    dsimp only
    rw [if_pos h1]
  rw [h2]
  refine runBest_keep _ q l₂ ?_ _ rfl
  intro c2 hc2 q2 hq2
  have hmem : c2 ∈ candidates p_values d_values q_values := by
    rw [hcand]
    exact List.mem_append_right _ (List.mem_cons_of_mem _ hc2)
  exact hmin c2 hmem q2 hq2

theorem evaluate_models_enumeration_tie_break_witness :
    (evaluate_arima_models (fun _ _ => some 3)
        (astype_float32 [1, 2, 3, 4]) (0, 0, 0) = some (1 / 2) ∧
      evaluate_arima_models (fun _ _ => some 3)
        (astype_float32 [1, 2, 3, 4]) (0, 0, 1) = some (1 / 2)) ∧
    (evaluate_models (fun _ _ => some 3) [1, 2, 3, 4] [0] [0] [0, 1]).best =
      { best_score := ((1 / 2 : ℚ) : WithTop ℚ), best_cfg := some (0, 0, 0) } := by
  have hv0 : evaluate_arima_models (fun _ _ => some 3)
      (astype_float32 [1, 2, 3, 4]) (0, 0, 0) = some (1 / 2) := by
    have h : evaluate_arima_models (fun _ _ => some 3)
        (astype_float32 [1, 2, 3, 4]) (0, 0, 0) =
        some (rmse_sq [3, 4] [3, 3]) := rfl
    rw [h]
    norm_num [rmse_sq]
  have hv1 : evaluate_arima_models (fun _ _ => some 3)
      (astype_float32 [1, 2, 3, 4]) (0, 0, 1) = some (1 / 2) := by
    have h : evaluate_arima_models (fun _ _ => some 3)
        (astype_float32 [1, 2, 3, 4]) (0, 0, 1) =
        some (rmse_sq [3, 4] [3, 3]) := rfl
    rw [h]
    norm_num [rmse_sq]
  refine ⟨⟨hv0, hv1⟩, ?_⟩
  refine (evaluate_models_enumeration_tie_break [0] [0] [0, 1]).2.2.2
    (fun _ _ => some 3) [1, 2, 3, 4] _ rfl [] [(0, 0, 1)] (0, 0, 0) (1 / 2)
    (by decide) hv0 ?_ (by simp)
  intro c2 hc2 q2 hq2
  have hc : c2 = (0, 0, 0) ∨ c2 = (0, 0, 1) := by
    have hl : candidates [0] [0] [0, 1] = [(0, 0, 0), (0, 0, 1)] := by decide
    rw [hl] at hc2
    simpa using hc2
  have hval : evaluate_arima_models (fun _ _ => some 3)
      (astype_float32 [1, 2, 3, 4]) c2 = some (1 / 2) := by
    rcases hc with rfl | rfl
    · exact hv0
    · exact hv1
  rw [hval] at hq2
  injection hq2 with hq2
  rw [← hq2]

/-- Claim C6 counterexample: at a concrete input, the return value of
`evaluate_models` is not the pair (best_config, best_error): the source
function ends with a print statement and has no return statement, so its
value is Python's None. -/
theorem evaluate_models_returns_pair_cex :
    (evaluate_models (fun _ _ => some 0) [1, 2, 3, 4] [0] [0] [0]).retval ≠
      some ((evaluate_models (fun _ _ => some 0) [1, 2, 3, 4]
               [0] [0] [0]).best.best_cfg,
            (evaluate_models (fun _ _ => some 0) [1, 2, 3, 4]
               [0] [0] [0]).best.best_score) := by
  intro h
  exact Option.noConfusion
    ((evaluate_models_retval (fun _ _ => some 0) [1, 2, 3, 4]
      [0] [0] [0]) ▸ h).symm

/-- Claim C6 as amended: `evaluate_models` reports the pair
(best_config, best_error) in its final printed line, but does not return
it as its result value — its return value to the caller is None (it
returns no pair at all). -/
theorem evaluate_models_reports_pair (fc : ModelPrimitive) (dataset : List ℚ)
    (p_values d_values q_values : List ℕ) :
    (evaluate_models fc dataset p_values d_values q_values).retval = none ∧
    (evaluate_models fc dataset p_values d_values q_values).output.getLast? =
      some (OutLine.finalReport
        (evaluate_models fc dataset p_values d_values q_values).best.best_cfg
        (evaluate_models fc dataset p_values d_values
          q_values).best.best_score) ∧
    (∀ pr : Option ArimaOrder × WithTop ℚ,
        (evaluate_models fc dataset p_values d_values q_values).retval ≠
          some pr) := by
  refine ⟨evaluate_models_retval fc dataset p_values d_values q_values,
    evaluate_models_output_last fc dataset p_values d_values q_values, ?_⟩
  intro pr h
  exact Option.noConfusion
    ((evaluate_models_retval fc dataset p_values d_values q_values) ▸ h).symm

theorem evaluate_models_reports_pair_witness :
    (evaluate_models (fun _ _ => some 0) [1, 2, 3, 4] [0] [0] [0]).retval =
      none :=
  (evaluate_models_reports_pair (fun _ _ => some 0) [1, 2, 3, 4]
    [0] [0] [0]).1

/-- Claim C7: the no-success outcome is reported distinctly from a found
best result: the final Best Result equals the initial sentinel pair
(positive infinity, no configuration) exactly when every candidate's
evaluation fails, so the sentinel is never presented as a found best and a
found best never coincides with the sentinel. -/
theorem evaluate_models_sentinel_iff_no_success (fc : ModelPrimitive)
    (X : List ℚ) (p_values d_values q_values : List ℕ) :
    ((evaluate_models fc X p_values d_values q_values).best.best_cfg = none ∧
     (evaluate_models fc X p_values d_values q_values).best.best_score = ⊤) ↔
    (∀ c ∈ candidates p_values d_values q_values,
        evaluate_arima_models fc (astype_float32 X) c = none) := by
  rw [evaluate_models_best]
  constructor
  · rintro ⟨hcfg, hscore⟩ c hc
    by_contra hne
    obtain ⟨q, hq⟩ := Option.ne_none_iff_exists'.mp hne
    have hle := @runBest_score_le_of_mem
      (fun c => evaluate_arima_models fc (astype_float32 X) c) _ _ _
      hc hq initBest
    rw [hscore] at hle
    exact absurd hle (by simp)
  · intro hall
    rw [runBest_all_fail hall initBest]
    exact ⟨rfl, rfl⟩

theorem evaluate_models_sentinel_iff_no_success_witness :
    ((evaluate_models (fun _ _ => none) [1, 2, 3, 4]
        [0] [0] [0]).best.best_cfg = none ∧
     (evaluate_models (fun _ _ => none) [1, 2, 3, 4]
        [0] [0] [0]).best.best_score = ⊤) ∧
    ¬ ((evaluate_models (fun _ _ => some 0) [1, 2, 3, 4]
          [0] [0] [0]).best.best_cfg = none ∧
       (evaluate_models (fun _ _ => some 0) [1, 2, 3, 4]
          [0] [0] [0]).best.best_score = ⊤) := by
  constructor
  · exact (evaluate_models_sentinel_iff_no_success (fun _ _ => none)
      [1, 2, 3, 4] [0] [0] [0]).mpr (by decide)
  · intro h
    have hall := (evaluate_models_sentinel_iff_no_success (fun _ _ => some 0)
      [1, 2, 3, 4] [0] [0] [0]).mp h (0, 0, 0) (by decide)
    have hok : evaluate_arima_models (fun _ _ => some (0 : ℚ))
        (astype_float32 [1, 2, 3, 4]) (0, 0, 0) =
        some (rmse_sq [3, 4] [0, 0]) := rfl
    rw [hall] at hok
    exact Option.noConfusion hok

/-- Claim C10: when any of the three candidate collections is empty the
enumeration is empty, the evaluator is never invoked (the outcome is
independent of the modeling primitive), and the reported Best Result is
exactly the initial sentinel pair (positive infinity, no configuration). -/
theorem evaluate_models_empty_candidates (fc : ModelPrimitive) (X : List ℚ)
    (p_values d_values q_values : List ℕ)
    (h : p_values = [] ∨ d_values = [] ∨ q_values = []) :
    candidates p_values d_values q_values = [] ∧
    evaluate_models fc X p_values d_values q_values =
      { best := initBest, output := [OutLine.finalReport none ⊤],
        retval := none } ∧
    (∀ fc2 : ModelPrimitive,
        evaluate_models fc2 X p_values d_values q_values =
          evaluate_models fc X p_values d_values q_values) := by
  have hcand : candidates p_values d_values q_values = [] := by
    rcases h with rfl | rfl | rfl
    · rfl
    · simp [candidates]
    · simp [candidates]
  refine ⟨hcand, evaluate_models_of_candidates_nil fc X _ _ _ hcand,
    fun fc2 => ?_⟩
  rw [evaluate_models_of_candidates_nil fc X _ _ _ hcand,
    evaluate_models_of_candidates_nil fc2 X _ _ _ hcand]

theorem evaluate_models_empty_candidates_witness :
    (([] : List ℕ) = [] ∨ ([0] : List ℕ) = [] ∨ ([0] : List ℕ) = []) ∧
    evaluate_models (fun _ _ => some 0) [1, 2, 3, 4] [] [0] [0] =
      { best := initBest, output := [OutLine.finalReport none ⊤],
        retval := none } :=
  ⟨Or.inl rfl,
    (evaluate_models_empty_candidates (fun _ _ => some 0) [1, 2, 3, 4]
      [] [0] [0] (Or.inl rfl)).2.1⟩

end ArimaGrid
